import Mathlib

/-!
Verification of the audiobook generation script (`audiobook_gen.py`).

The script drives an LLM to write successive book chapters, a TTS service to
narrate them, and an external media tool to splice the narration.  The model
below is a shallow embedding: Python strings become `List Char`, the regex
tag parser becomes an explicit character-level scanner with the exact
semantics of `re.finditer(r"(?i)\[(\w+)\]\s*(.*?)(?=\n*\[\w+\]|$)", s, re.DOTALL)`,
the progress dict becomes an association list, external effects (API calls,
file writes) become an explicit event trace, and Python exceptions become
`Except`.
-/

/-- Abbreviation: the characters of a string literal. -/
def str (s : String) : List Char := s.data

/-- Python's `\w` (ASCII range): letters, digits and underscore. -/
def isWordChar (c : Char) : Bool := c.isAlphanum || c = '_'

/-- Python's `\s` and the default `str.strip` set (ASCII range):
space, tab, newline, carriage return, vertical tab, form feed. -/
def isSpaceChar (c : Char) : Bool :=
  c = ' ' || c = '\t' || c = '\n' || c = '\r' || c = '\x0b' || c = '\x0c'

/-- Python `str.lstrip()`: drop leading whitespace. -/
def lstrip (l : List Char) : List Char := l.dropWhile isSpaceChar

/-- Python `str.rstrip()`: drop trailing whitespace. -/
def rstrip (l : List Char) : List Char := (l.reverse.dropWhile isSpaceChar).reverse

/-- Python `str.strip()`: drop leading and trailing whitespace. -/
def strip (l : List Char) : List Char := rstrip (lstrip l)

/-- Match the regex fragment `\[(\w+)\]` at the head of `s`.
On success, return the captured group (the nonempty run of word characters)
together with the remainder of the string after the closing bracket. -/
def matchTag (s : List Char) : Option (List Char × List Char) :=
  match s with
  | [] => none
  | c :: rest =>
    if c = '[' then
      let w := rest.takeWhile isWordChar
      if w.isEmpty then none
      else
        match rest.dropWhile isWordChar with
        | ']' :: r2 => some (w, r2)
        | _ => none
    else none

/-- The lookahead `(?=\n*\[\w+\]|$)` of the section regex, tested at the
position where `t` is the remaining input.  `$` (without `re.MULTILINE`)
matches at the end of the string or just before a single trailing newline. -/
def tagAhead (t : List Char) : Bool :=
  (matchTag (t.dropWhile fun c => c = '\n')).isSome || t.isEmpty || t = ['\n']

/-- The lazy group `(.*?)` of the section regex: consume characters (DOTALL,
so newlines included) up to the first position where `tagAhead` holds.
Returns the consumed content and the remaining input. -/
def takeContent : List Char → List Char × List Char
  | [] => ([], [])
  | c :: rest =>
    if tagAhead (c :: rest) then ([], c :: rest)
    else ((c :: (takeContent rest).1), (takeContent rest).2)

/-- Claim-side splitter: consume characters up to (but not including) the
next bracketed single-word tag, or to the end of the string. -/
def splitAtNextTag : List Char → List Char × List Char
  | [] => ([], [])
  | c :: rest =>
    if (matchTag (c :: rest)).isSome then ([], c :: rest)
    else ((c :: (splitAtNextTag rest).1), (splitAtNextTag rest).2)

/-- Python `match.group(1).strip().lower()` applied to a captured tag. -/
def tagName (w : List Char) : List Char := (strip w).map Char.toLower

/-- One step of `re.finditer` as performed by `extract_sections`
(`audiobook_gen.py` lines 64-69), with explicit fuel.  At each position the
engine first tries to match `\[(\w+)\]`; on success the greedy `\s*` consumes
the maximal whitespace run, the lazy `(.*?)` consumes up to the lookahead,
and scanning resumes at the end of the match (non-overlapping matches).
On failure scanning advances one character.  Each step consumes at least one
character, so fuel `s.length` suffices. -/
def scanAux : Nat → List Char → List (List Char × List Char)
  | 0, _ => []
  | _ + 1, [] => []
  | fuel + 1, c :: rest =>
    match matchTag (c :: rest) with
    | some (w, afterTag) =>
      let p := takeContent (afterTag.dropWhile isSpaceChar)
      (tagName w, strip p.1) :: scanAux fuel p.2
    | none => scanAux fuel rest

/-- The list of `(tag, stripped content)` pairs produced by the regex scan of
`extract_sections`, in match order. -/
def scanSections (s : List Char) : List (List Char × List Char) := scanAux s.length s

/-- Function `extract_sections` (`audiobook_gen.py` lines 59-70): the Python dict is
modelled as the association list of matches in insertion order; dict
overwrite semantics live in `sections_get`. -/
def extract_sections (response : List Char) : List (List Char × List Char) :=
  scanSections response

/-- Lookup in the dict built by successive assignments `sections[tag] = c`:
the value of the most recent (last) binding wins, as in a Python dict. -/
def sections_get (d : List (List Char × List Char)) (k : List Char) :
    Option (List Char) :=
  (d.reverse.find? fun e => e.1 = k).map (·.2)

/-- Claim-side scanner, written from the words of the specification: each
occurrence of a bracketed single-word tag contributes one entry whose key is
the tag lowercased and whose value is the text following the occurrence up to
(but not including) the next bracketed single-word tag or the end of the
string, stripped of leading and trailing whitespace. -/
def specAux : Nat → List Char → List (List Char × List Char)
  | 0, _ => []
  | _ + 1, [] => []
  | fuel + 1, c :: rest =>
    match matchTag (c :: rest) with
    | some (w, afterTag) =>
      let p := splitAtNextTag afterTag
      (tagName w, strip p.1) :: specAux fuel p.2
    | none => specAux fuel rest

/-- The claim's description of `extract_sections`, as an association list. -/
def spec_sections (s : List Char) : List (List Char × List Char) := specAux s.length s


/-- JSON-representable values stored in a progress checkpoint: the script
only ever stores strings and the integer chapter counter. -/
inductive PVal where
  | vstr : List Char → PVal
  | vnum : Nat → PVal
deriving DecidableEq

/-- A progress checkpoint object: a Python dict in insertion order. -/
abbrev Pdict := List (List Char × PVal)

/-- Dict lookup (keys of a Python dict are unique, so first match wins). -/
def pget (d : Pdict) (k : List Char) : Option PVal :=
  (d.find? fun e => e.1 = k).map (·.2)

/-- How a value renders inside an f-string (`str(x)` formatting). -/
def pvalFormat : PVal → List Char
  | PVal.vstr s => s
  | PVal.vnum n => str (Nat.repr n)

/-- Python truthiness of a progress value: `""` and `0` are falsy. -/
def pvalFalsy : PVal → Bool
  | PVal.vstr s => s.isEmpty
  | PVal.vnum n => n == 0

/-- Python truthiness of `str_or_none`: `None` and `""` are falsy. -/
def optFalsy : Option (List Char) → Bool
  | none => true
  | some s => s.isEmpty

/-- Python `a or b` for two optional strings (`dict.get` results). -/
def orFalsy (a b : Option (List Char)) : Option (List Char) :=
  match a with
  | some s => if s.isEmpty then b else some s
  | none => b

/-- Python `progress.get("chapter_number", 0)` as used in an arithmetic context
(`+ 1`): a string value would raise `TypeError`, hence `none`. -/
def nextChapterBase (progress : Pdict) : Option Nat :=
  match pget progress (str "chapter_number") with
  | none => some 0
  | some (PVal.vnum n) => some n
  | some (PVal.vstr _) => none

/-- Python `progress.get("summaries", "")` as used in a string concatenation
(line 208): a numeric value would raise `TypeError`, hence `none`. -/
def getSummariesStr (progress : Pdict) : Option (List Char) :=
  match pget progress (str "summaries") with
  | none => some []
  | some (PVal.vstr s) => some s
  | some (PVal.vnum _) => none

/-- The prompt built by `generate_chapter` (`audiobook_gen.py` lines 75-89):
the f-string with the book specification, the accumulated summaries (or
`N/A` when falsy), the last checkpoint, and the request for chapter
`chapter_number + 1`.  `none` models the `TypeError` raised on line 77 when
the stored chapter number is not a number (this happens before the API
call). -/
def generate_chapter_prompt (spec : List Char) (progress : Pdict) :
    Option (List Char) :=
  match nextChapterBase progress with
  | none => none
  | some lastN =>
    let checkpoint_text := (pget progress (str "checkpoint")).getD (PVal.vstr [])
    let summaries_text := (pget progress (str "summaries")).getD (PVal.vstr [])
    some (str "\n[book specification]\n" ++ spec ++ str "\n\n[summaries]\n" ++
      (if pvalFalsy summaries_text then str "N/A" else pvalFormat summaries_text) ++
      str "\n\n[last checkpoint]\n" ++ pvalFormat checkpoint_text ++
      str "\n\n**Please write chapter " ++ str (Nat.repr (lastN + 1)) ++
      str ".**\n")

/-- Externally visible effects of a run, in order of occurrence.  API calls
and file writes are events; the LLM's answer itself is an oracle input. -/
inductive Event where
  | llmCall (prompt : List Char)
  | savedProgress (p : Pdict)
  | wroteText (chapterNumber : Nat) (content : List Char)
  | ttsCall (content : List Char)
  | wroteAudio (chapterNumber : Nat)
  | ranFfmpeg (inputs : List (List Char)) (output : List Char)
deriving DecidableEq

/-- Python exceptions raised by the script. -/
inductive PyErr where
  | valueError
  | typeError
  | keyError
  | attributeError
deriving DecidableEq

/-- Python `s.replace(pat, "")` for a nonempty `pat`: remove all
non-overlapping occurrences, scanning left to right. -/
def removeAllAux (pat : List Char) : Nat → List Char → List Char
  | 0, s => s
  | _ + 1, [] => []
  | f + 1, c :: rest =>
    if pat.isPrefixOf (c :: rest) then
      removeAllAux pat f ((c :: rest).drop pat.length)
    else c :: removeAllAux pat f rest

/-- Python `chapter_content.replace("<the end>", "")` (line 211), case-sensitive. -/
def pyRemove (s pat : List Char) : List Char := removeAllAux pat s.length s

/-- The literal end-of-story marker. -/
def theEnd : List Char := str "<the end>"

/-- Python substring test `pat in s`. -/
def infixCheck (pat : List Char) : List Char → Bool
  | [] => pat.isEmpty
  | c :: rest => pat.isPrefixOf (c :: rest) || infixCheck pat rest

/-- Python `"<the end>" in response.lower()` (line 209). -/
def containsTheEnd (response : List Char) : Bool :=
  infixCheck theEnd (response.map Char.toLower)

/-- Python `sections.get("chapter", "")` (line 201). -/
def chapterContentOf (response : List Char) : List Char :=
  (sections_get (extract_sections response) (str "chapter")).getD []

/-- Python `sections.get("checkpoint") or sections.get("last checkpoint")`
(line 202). -/
def checkpointOf (response : List Char) : Option (List Char) :=
  orFalsy (sections_get (extract_sections response) (str "checkpoint"))
    (sections_get (extract_sections response) (str "last checkpoint"))

/-- Python `sections.get("summary") or sections.get("summaries", "")` (line 203). -/
def summaryContentOf (response : List Char) : List Char :=
  match sections_get (extract_sections response) (str "summary") with
  | some s =>
    if s.isEmpty then
      (sections_get (extract_sections response) (str "summaries")).getD []
    else s
  | none => (sections_get (extract_sections response) (str "summaries")).getD []

/-- The summary block appended on line 208 for chapter `n`. -/
def summaryBlock (n : Nat) (summary_content : List Char) : List Char :=
  str "\n### Chapter " ++ str (Nat.repr n) ++ str " Summary:\n" ++ summary_content

/-- The events of a successful `new_chapter` run, in source order
(lines 230-240): persist progress, write the chapter text file, then
(unless `--skip-audio`) one TTS call followed by the audio file write. -/
def mkChapterTrace (prompt : List Char) (progress : Pdict) (n : Nat)
    (content : List Char) (skip : Bool) : List Event :=
  [Event.llmCall prompt, Event.savedProgress progress, Event.wroteText n content] ++
    (if skip then [] else [Event.ttsCall content, Event.wroteAudio n])

/-- Function `new_chapter` (`audiobook_gen.py` lines 197-241).  The LLM's `response`
is an oracle parameter; the result is the event trace together with the
function's return value (`none` models Python `None`, returned when the
story completed) or the exception raised. -/
def new_chapter (spec : List Char) (last_progress : Pdict) (response : List Char)
    (skip_audio : Bool) : List Event × Except PyErr (Option Pdict) :=
  match generate_chapter_prompt spec last_progress with
  | none => ([], Except.error PyErr.typeError)
  | some prompt =>
    let chapter_content := chapterContentOf response
    let checkpoint := checkpointOf response
    let summary_content := summaryContentOf response
    if chapter_content.isEmpty then
      ([Event.llmCall prompt], Except.error PyErr.valueError)
    else
      match nextChapterBase last_progress with
      | none => ([Event.llmCall prompt], Except.error PyErr.typeError)
      | some lastN =>
        match getSummariesStr last_progress with
        | none => ([Event.llmCall prompt], Except.error PyErr.typeError)
        | some sums =>
          let chapter_number := lastN + 1
          let new_summaries := strip (sums ++ summaryBlock chapter_number summary_content)
          if containsTheEnd response || optFalsy checkpoint then
            let content2 := pyRemove chapter_content theEnd
            let progress : Pdict :=
              [(str "last_chapter", PVal.vstr content2),
               (str "checkpoint", PVal.vstr (str "DONE")),
               (str "chapter_number", PVal.vnum chapter_number),
               (str "summaries", PVal.vstr new_summaries)]
            (mkChapterTrace prompt progress chapter_number content2 skip_audio,
              Except.ok none)
          else
            let progress : Pdict :=
              [(str "last_chapter", PVal.vstr chapter_content),
               (str "checkpoint", PVal.vstr (checkpoint.getD [])),
               (str "chapter_number", PVal.vnum chapter_number),
               (str "summaries", PVal.vstr new_summaries)]
            (mkChapterTrace prompt progress chapter_number chapter_content skip_audio,
              Except.ok (some progress))

/-- The `progress/` directory: book id to stored checkpoint object.  The
`json.dump`/`json.load` round trip of the external json library is modelled
as the identity on checkpoint objects. -/
abbrev Store := List (List Char × Pdict)

/-- Read the stored checkpoint file for a book, if present. -/
def lookupStore (store : Store) (book_id : List Char) : Option Pdict :=
  (store.find? fun e => e.1 = book_id).map (·.2)

/-- Function `save_progress` (lines 46-52): write the checkpoint object. -/
def save_progress (store : Store) (book_id : List Char) (checkpoint : Pdict) :
    Store :=
  (book_id, checkpoint) :: store

/-- The default progress checkpoint (lines 39-44). -/
def default_progress : Pdict :=
  [(str "last_chapter", PVal.vstr (str "N/A")),
   (str "checkpoint", PVal.vstr (str "This is the start of the story.")),
   (str "chapter_number", PVal.vnum 0),
   (str "summaries", PVal.vstr [])]

/-- Function `load_progress` (lines 21-44).  `chaptersDirCount` models the
filesystem: `some k` when the `chapters` directory exists and contains `k`
matching chapter text files, `none` when the directory does not exist. -/
def load_progress (store : Store) (book_id : List Char)
    (chaptersDirCount : Option Nat) : Pdict :=
  match lookupStore store book_id with
  | some progress =>
    if (pget progress (str "chapter_number")).isSome then progress
    else progress ++ [(str "chapter_number", PVal.vnum (chaptersDirCount.getD 0))]
  | none => default_progress

/-- Python `int("...")` on a nonempty digit string. -/
def digitsToNat (ds : List Char) : Nat :=
  ds.foldl (fun acc c => acc * 10 + (c.toNat - 48)) 0

/-- Match `chapter_(\d+)\.wav` at the head of `s` and return the number.
The greedy `\d+` takes the maximal digit run; backtracking cannot help
because a shorter run would leave a digit where `\.` must match. -/
def chapterWavAt (s : List Char) : Option Nat :=
  if (str "chapter_").isPrefixOf s then
    let rest := s.drop 8
    let ds := rest.takeWhile Char.isDigit
    if ds.isEmpty then none
    else if (str ".wav").isPrefixOf (rest.dropWhile Char.isDigit) then
      some (digitsToNat ds)
    else none
  else none

/-- Python `re.search(r"chapter_(\d+)\.wav", name)` (line 169): the leftmost
position where the pattern matches. -/
def chapterNumOf : List Char → Option Nat
  | [] => none
  | c :: rest =>
    match chapterWavAt (c :: rest) with
    | some n => some n
    | none => chapterNumOf rest

/-- The sort key `int(re.search(r"chapter_(\d+)\.wav", f.name).group(1))`. -/
def wavKey (f : List Char) : Nat := (chapterNumOf f).getD 0

/-- Comparison of two wav filenames by their numeric sort key. -/
def wavLe (a b : List Char) : Prop := wavKey a ≤ wavKey b

instance : DecidableRel wavLe := fun a b =>
  inferInstanceAs (Decidable (wavKey a ≤ wavKey b))

instance : IsTotal (List Char) wavLe :=
  ⟨fun a b => Nat.le_total (wavKey a) (wavKey b)⟩

instance : IsTrans (List Char) wavLe :=
  ⟨fun _ _ _ h₁ h₂ => Nat.le_trans h₁ h₂⟩

/-- Python `sorted(files, key=...)`: sort by numeric chapter number (Python's sort
is stable; the claims proved below do not depend on the order of ties). -/
def sortWavFiles (files : List (List Char)) : List (List Char) :=
  List.insertionSort wavLe files

/-- Function `concat_audio_files` (lines 165-194): sort the book's chapter wav files
by their numeric chapter number and hand them to ffmpeg in that order; when
there are no files, return without invoking ffmpeg.  A filename the regex
cannot parse raises `AttributeError` (`.group` on `None`) while sorting. -/
def concat_audio_files (files : List (List Char)) (output : List Char) :
    List Event × Except PyErr Unit :=
  if files.any fun f => (chapterNumOf f).isNone then
    ([], Except.error PyErr.attributeError)
  else if files.isEmpty then ([], Except.ok ())
  else ([Event.ranFfmpeg (sortWavFiles files) output], Except.ok ())

/-- Function `regen_missing_audio` (lines 243-256): for every chapter text file
(sorted by chapter number) whose audio file is missing, one TTS call and one
audio file write. -/
def regen_missing_audio (mdFiles : List (Nat × List Char))
    (wavExists : Nat → Bool) : List Event :=
  (List.insertionSort (fun a b => a.1 ≤ b.1) mdFiles).foldr
    (fun p acc =>
      (if wavExists p.1 then [] else [Event.ttsCall p.2, Event.wroteAudio p.1]) ++ acc)
    []

/-- Command-line arguments of `main` (the audio speed multiplier only
parametrises the external filter chain and is omitted). -/
structure Args where
  num_chapters : Nat
  regen_audio : Bool
  skip_audio : Bool
  concat_audio : Option (List Char)

/-- The `for _ in range(num_chapters)` loop of `main` (lines 283-287):
`oracle i` is the LLM response of iteration `i`; the loop breaks when
`new_chapter` returns `None` and rethreads the returned progress
otherwise. -/
def chapter_loop (spec : List Char) (oracle : Nat → List Char) (skip : Bool) :
    Nat → Nat → Pdict → List Event × Except PyErr Unit
  | _, 0, _ => ([], Except.ok ())
  | i, k + 1, progress =>
    let r := new_chapter spec progress (oracle i) skip
    match r.2 with
    | Except.error e => (r.1, Except.error e)
    | Except.ok none => (r.1, Except.ok ())
    | Except.ok (some p) =>
      let r2 := chapter_loop spec oracle skip (i + 1) k p
      (r.1 ++ r2.1, r2.2)

/-- Function `main` (lines 258-291) for one book: load progress, optionally
regenerate missing audio, skip generation when the stored checkpoint equals
`DONE` (a missing `checkpoint` key would raise `KeyError` on line 279),
run the chapter loop otherwise, and optionally concatenate audio.
`chaptersDir` models the chapter text files on disk (used both for the
chapter count in `load_progress` and by `--regen-audio`), `wavExists` tells
which chapter audio files exist, `wavFiles` is the glob of chapter wav
files. -/
def main_run (store : Store) (book_id spec : List Char)
    (chaptersDir : Option (List (Nat × List Char))) (wavExists : Nat → Bool)
    (wavFiles : List (List Char)) (oracle : Nat → List Char) (args : Args) :
    List Event × Except PyErr Unit :=
  let mdFiles := chaptersDir.getD []
  let progress := load_progress store book_id (chaptersDir.map List.length)
  let regenTr := if args.regen_audio then regen_missing_audio mdFiles wavExists else []
  match pget progress (str "checkpoint") with
  | none => (regenTr, Except.error PyErr.keyError)
  | some v =>
    let gen : List Event × Except PyErr Unit :=
      if v = PVal.vstr (str "DONE") then ([], Except.ok ())
      else chapter_loop spec oracle args.skip_audio 0 args.num_chapters progress
    match gen.2 with
    | Except.error e => (regenTr ++ gen.1, Except.error e)
    | Except.ok _ =>
      match args.concat_audio with
      | none => (regenTr ++ gen.1, Except.ok ())
      | some out =>
        let conc := concat_audio_files wavFiles out
        (regenTr ++ gen.1 ++ conc.1, conc.2)

/-- The progress dicts persisted during a run, extracted from its trace. -/
def savedDicts (tr : List Event) : List Pdict :=
  tr.filterMap fun e =>
    match e with
    | Event.savedProgress p => some p
    | _ => none

/-- Is this event an outbound LLM text-generation request? -/
def isLlmCall : Event → Bool
  | Event.llmCall _ => true
  | _ => false

/-- Is this event an outbound TTS request? -/
def isTtsCall : Event → Bool
  | Event.ttsCall _ => true
  | _ => false

/-- Is this event a file write (chapter text or audio)? -/
def isFileWrite : Event → Bool
  | Event.wroteText _ _ => true
  | Event.wroteAudio _ => true
  | _ => false

/-- The per-chapter event order asserted by the specification: one LLM
request, persisting the checkpoint, then exactly one TTS request, and only
then the writes of the chapter output files. -/
def specTraceShape : List Event → Bool
  | [Event.llmCall _, Event.savedProgress _, Event.ttsCall _, w1, w2] =>
    isFileWrite w1 && isFileWrite w2
  | _ => false

/-- Did the call return normally (no exception)? -/
def isOkResult : Except PyErr (Option Pdict) → Bool
  | Except.ok _ => true
  | Except.error _ => false

instance : DecidableEq (Except PyErr (Option Pdict)) := fun a b =>
  match a, b with
  | Except.ok x, Except.ok y => decidable_of_iff (x = y) (by simp)
  | Except.error x, Except.error y => decidable_of_iff (x = y) (by simp)
  | Except.ok _, Except.error _ => isFalse (by simp)
  | Except.error _, Except.ok _ => isFalse (by simp)

theorem matchTag_none_of_ne (c : Char) (l : List Char) (h : c ≠ '[') :
    matchTag (c :: l) = none := by
  simp [matchTag, h]

theorem isSpaceChar_ne_bracket (c : Char) (h : isSpaceChar c = true) : c ≠ '[' := by
  intro heq
  subst heq
  exact absurd h (by decide)

theorem matchTag_isSome_tagAhead (t : List Char) (h : (matchTag t).isSome) :
    tagAhead t = true := by
  have hne : t ≠ [] := by
    intro he
    rw [he] at h
    simp [matchTag] at h
  obtain ⟨c, rest, rfl⟩ := List.exists_cons_of_ne_nil hne
  have hc : c = '[' := by
    by_contra hc
    rw [matchTag_none_of_ne c rest hc] at h
    simp at h
  subst hc
  have : List.dropWhile (fun c => c = '\n') ('[' :: rest) = '[' :: rest := by
    simp [List.dropWhile]
  simp [tagAhead, this, h]

theorem dropWhile_len_le (p : Char → Bool) (l : List Char) :
    (l.dropWhile p).length ≤ l.length := by
  induction l with
  | nil => simp
  | cons a l ih =>
    by_cases ha : p a
    · simp only [List.dropWhile, ha]
      simp only [List.length_cons]
      omega
    · simp only [List.dropWhile, ha]
      simp

theorem matchTag_rest_length (s w r : List Char) (h : matchTag s = some (w, r)) :
    r.length < s.length := by
  match s with
  | [] => simp [matchTag] at h
  | c :: rest =>
    by_cases hc : c = '['
    · subst hc
      simp only [matchTag, if_pos rfl] at h
      by_cases hw : (rest.takeWhile isWordChar).isEmpty
      · simp [hw] at h
      · simp only [hw, Bool.false_eq_true, if_false] at h
        have hlen : (rest.dropWhile isWordChar).length ≤ rest.length :=
          dropWhile_len_le isWordChar rest
        match hd : rest.dropWhile isWordChar with
        | [] => rw [hd] at h; simp at h
        | b :: r2 =>
          rw [hd] at h hlen
          by_cases hb : b = ']'
          · subst hb
            simp at h
            simp only [List.length_cons] at hlen
            rw [← h.2]
            simp only [List.length_cons]
            omega
          · have : (match b :: r2 with
              | ']' :: r2 => some (rest.takeWhile isWordChar, r2)
              | _ => none) = (none : Option (List Char × List Char)) := by
              cases b
              simp_all [Char.ext_iff]
            rw [this] at h
            simp at h
    · rw [matchTag_none_of_ne c rest hc] at h
      simp at h

theorem takeContent_snd_length (l : List Char) :
    ((takeContent l).2).length ≤ l.length := by
  induction l with
  | nil => simp [takeContent]
  | cons c rest ih =>
    by_cases h : tagAhead (c :: rest)
    · simp [takeContent, h]
    · simp only [takeContent, h, Bool.false_eq_true, if_false]
      simp only [List.length_cons]
      omega

theorem splitAtNextTag_snd_length (l : List Char) :
    ((splitAtNextTag l).2).length ≤ l.length := by
  induction l with
  | nil => simp [splitAtNextTag]
  | cons c rest ih =>
    by_cases h : (matchTag (c :: rest)).isSome
    · simp [splitAtNextTag, h]
    · simp only [splitAtNextTag, h, Bool.false_eq_true, if_false]
      simp only [List.length_cons]
      omega

theorem scanAux_nil (f : Nat) : scanAux f [] = [] := by
  cases f <;> rfl

theorem specAux_nil (f : Nat) : specAux f [] = [] := by
  cases f <;> rfl

theorem scanAux_congr (f₁ : Nat) :
    ∀ (f₂ : Nat) (s : List Char), s.length ≤ f₁ → s.length ≤ f₂ →
      scanAux f₁ s = scanAux f₂ s := by
  induction f₁ with
  | zero =>
    intro f₂ s h₁ _
    have : s = [] := List.length_eq_zero.mp (Nat.le_zero.mp h₁)
    subst this
    rw [scanAux_nil, scanAux_nil]
  | succ f ih =>
    intro f₂ s h₁ h₂
    match s with
    | [] => rw [scanAux_nil, scanAux_nil]
    | c :: rest =>
      match f₂ with
      | 0 => simp at h₂
      | g + 1 =>
        simp only [List.length_cons] at h₁ h₂
        cases hm : matchTag (c :: rest) with
        | none =>
          simp only [scanAux, hm]
          exact ih g rest (by omega) (by omega)
        | some p =>
          obtain ⟨w, afterTag⟩ := p
          have haft : afterTag.length < rest.length + 1 :=
            matchTag_rest_length (c :: rest) w afterTag hm
          have hq : ((takeContent (afterTag.dropWhile isSpaceChar)).2).length ≤
              afterTag.length :=
            le_trans (takeContent_snd_length _) (dropWhile_len_le _ _)
          simp only [scanAux, hm]
          rw [ih g ((takeContent (afterTag.dropWhile isSpaceChar)).2)
            (by omega) (by omega)]

theorem specAux_congr (f₁ : Nat) :
    ∀ (f₂ : Nat) (s : List Char), s.length ≤ f₁ → s.length ≤ f₂ →
      specAux f₁ s = specAux f₂ s := by
  induction f₁ with
  | zero =>
    intro f₂ s h₁ _
    have : s = [] := List.length_eq_zero.mp (Nat.le_zero.mp h₁)
    subst this
    rw [specAux_nil, specAux_nil]
  | succ f ih =>
    intro f₂ s h₁ h₂
    match s with
    | [] => rw [specAux_nil, specAux_nil]
    | c :: rest =>
      match f₂ with
      | 0 => simp at h₂
      | g + 1 =>
        simp only [List.length_cons] at h₁ h₂
        cases hm : matchTag (c :: rest) with
        | none =>
          simp only [specAux, hm]
          exact ih g rest (by omega) (by omega)
        | some p =>
          obtain ⟨w, afterTag⟩ := p
          have haft : afterTag.length < rest.length + 1 :=
            matchTag_rest_length (c :: rest) w afterTag hm
          have hq : ((splitAtNextTag afterTag).2).length ≤ afterTag.length :=
            splitAtNextTag_snd_length _
          simp only [specAux, hm]
          rw [ih g ((splitAtNextTag afterTag).2) (by omega) (by omega)]

theorem scanSections_cons_none (c : Char) (rest : List Char)
    (h : matchTag (c :: rest) = none) :
    scanSections (c :: rest) = scanSections rest := by
  simp only [scanSections, List.length_cons, scanAux, h]

theorem scanSections_cons_some (c : Char) (rest w afterTag : List Char)
    (h : matchTag (c :: rest) = some (w, afterTag)) :
    scanSections (c :: rest) =
      (tagName w, strip (takeContent (afterTag.dropWhile isSpaceChar)).1) ::
        scanSections ((takeContent (afterTag.dropWhile isSpaceChar)).2) := by
  have haft : afterTag.length < rest.length + 1 :=
    matchTag_rest_length (c :: rest) w afterTag h
  have hq : ((takeContent (afterTag.dropWhile isSpaceChar)).2).length ≤
      afterTag.length :=
    le_trans (takeContent_snd_length _) (dropWhile_len_le _ _)
  simp only [scanSections, List.length_cons, scanAux, h]
  rw [scanAux_congr rest.length
    ((takeContent (afterTag.dropWhile isSpaceChar)).2).length
    ((takeContent (afterTag.dropWhile isSpaceChar)).2) (by omega) le_rfl]

theorem specSections_cons_none (c : Char) (rest : List Char)
    (h : matchTag (c :: rest) = none) :
    spec_sections (c :: rest) = spec_sections rest := by
  simp only [spec_sections, List.length_cons, specAux, h]

theorem specSections_cons_some (c : Char) (rest w afterTag : List Char)
    (h : matchTag (c :: rest) = some (w, afterTag)) :
    spec_sections (c :: rest) =
      (tagName w, strip (splitAtNextTag afterTag).1) ::
        spec_sections ((splitAtNextTag afterTag).2) := by
  have haft : afterTag.length < rest.length + 1 :=
    matchTag_rest_length (c :: rest) w afterTag h
  have hq : ((splitAtNextTag afterTag).2).length ≤ afterTag.length :=
    splitAtNextTag_snd_length _
  simp only [spec_sections, List.length_cons, specAux, h]
  rw [specAux_congr rest.length ((splitAtNextTag afterTag).2).length
    ((splitAtNextTag afterTag).2) (by omega) le_rfl]

theorem lstrip_append_spaces (w x : List Char)
    (hw : ∀ c ∈ w, isSpaceChar c = true) :
    lstrip (w ++ x) = lstrip x := by
  induction w with
  | nil => simp
  | cons a l ih =>
    have ha : isSpaceChar a = true := hw a (List.mem_cons_self a l)
    simp only [lstrip, List.cons_append, List.dropWhile, ha]
    exact ih fun c hc => hw c (List.mem_cons_of_mem a hc)

theorem lstrip_spaces_eq_nil (w : List Char)
    (hw : ∀ c ∈ w, isSpaceChar c = true) : lstrip w = [] := by
  have := lstrip_append_spaces w [] hw
  simpa using this

theorem lstrip_append_of_not_all (x n : List Char)
    (hx : ¬ ∀ c ∈ x, isSpaceChar c = true) :
    lstrip (x ++ n) = lstrip x ++ n := by
  induction x with
  | nil => exact absurd (by simp) hx
  | cons a l ih =>
    by_cases ha : isSpaceChar a
    · have hl : ¬ ∀ c ∈ l, isSpaceChar c = true := by
        intro hall
        exact hx fun c hc => by
          rcases List.mem_cons.mp hc with h | h
          · subst h; exact ha
          · exact hall c h
      simp only [lstrip, List.cons_append, List.dropWhile, ha]
      exact ih hl
    · simp only [lstrip, List.cons_append, List.dropWhile]
      rw [Bool.of_not_eq_true ha]
      simp

theorem rstrip_append_spaces (x n : List Char)
    (hn : ∀ c ∈ n, isSpaceChar c = true) :
    rstrip (x ++ n) = rstrip x := by
  simp only [rstrip, List.reverse_append]
  have : lstrip (n.reverse ++ x.reverse) = lstrip x.reverse :=
    lstrip_append_spaces n.reverse x.reverse
      (fun c hc => hn c (List.mem_reverse.mp hc))
  simpa [lstrip] using this

theorem strip_append_left_spaces (w x : List Char)
    (hw : ∀ c ∈ w, isSpaceChar c = true) :
    strip (w ++ x) = strip x := by
  simp only [strip]
  rw [lstrip_append_spaces w x hw]

theorem strip_append_right_spaces (x n : List Char)
    (hn : ∀ c ∈ n, isSpaceChar c = true) :
    strip (x ++ n) = strip x := by
  by_cases hx : ∀ c ∈ x, isSpaceChar c = true
  · simp only [strip]
    rw [lstrip_spaces_eq_nil x hx]
    rw [lstrip_append_spaces x n hx, lstrip_spaces_eq_nil n hn]
  · simp only [strip]
    rw [lstrip_append_of_not_all x n hx, rstrip_append_spaces _ n hn]

theorem splitAtNextTag_append_no_tag (w : List Char) :
    ∀ v : List Char, (∀ c ∈ w, c ≠ '[') →
      splitAtNextTag (w ++ v) =
        (w ++ (splitAtNextTag v).1, (splitAtNextTag v).2) := by
  induction w with
  | nil => intro v _; simp
  | cons a l ih =>
    intro v hw
    have ha : a ≠ '[' := hw a (List.mem_cons_self a l)
    have hm : matchTag (a :: (l ++ v)) = none := matchTag_none_of_ne a (l ++ v) ha
    simp only [List.cons_append, splitAtNextTag, List.append_eq, hm,
      Option.isSome_none, Bool.false_eq_true, if_false]
    rw [ih v fun c hc => hw c (List.mem_cons_of_mem a hc)]

theorem takeContent_of_tagAhead (t : List Char) (hne : t ≠ [])
    (h : tagAhead t = true) : takeContent t = ([], t) := by
  obtain ⟨c, rest, rfl⟩ := List.exists_cons_of_ne_nil hne
  simp [takeContent, h]

theorem splitAtNextTag_of_isSome (t : List Char)
    (h : (matchTag t).isSome) : splitAtNextTag t = ([], t) := by
  have hne : t ≠ [] := by
    intro he
    rw [he] at h
    simp [matchTag] at h
  obtain ⟨c, rest, rfl⟩ := List.exists_cons_of_ne_nil hne
  simp [splitAtNextTag, h]

/-- The relation between the source-side lazy content (`takeContent`, which
stops at the regex lookahead) and the claim-side content (`splitAtNextTag`,
which stops exactly at the next tag or the end): they differ at most by a run
of trailing newlines, which the lookahead `\n*\[\w+\]` and the `$`
before-final-newline rule allow the lazy group to leave unconsumed. -/
theorem content_rel (t : List Char) :
    ∃ n : List Char, (∀ c ∈ n, c = '\n') ∧
      (splitAtNextTag t).1 = (takeContent t).1 ++ n ∧
      (takeContent t).2 = n ++ (splitAtNextTag t).2 := by
  induction t with
  | nil => exact ⟨[], by simp, by simp [splitAtNextTag, takeContent], by
      simp [splitAtNextTag, takeContent]⟩
  | cons c rest ih =>
    by_cases hta : tagAhead (c :: rest)
    · rw [takeContent_of_tagAhead (c :: rest) (by simp) hta]
      by_cases hm : (matchTag (c :: rest)).isSome
      · rw [splitAtNextTag_of_isSome (c :: rest) hm]
        exact ⟨[], by simp, by simp, by simp⟩
      · -- The lookahead held but no tag starts here: the remaining input is a
        -- nonempty run of newlines followed by a tag, or the single final
        -- newline before the end of the string.
        simp only [tagAhead, Bool.or_eq_true] at hta
        rcases hta with hta | hlast
        · rcases hta with hdrop | hempty
          · -- newlines then a tag
            have hsplit : (c :: rest).takeWhile (fun x => x = '\n') ++
                (c :: rest).dropWhile (fun x => x = '\n') = c :: rest :=
              List.takeWhile_append_dropWhile _ _
            have hnl : ∀ x ∈ (c :: rest).takeWhile (fun x => x = '\n'), x = '\n' := by
              intro x hx
              have := List.mem_takeWhile_imp hx
              simpa using this
            have hne2 : ∀ x ∈ (c :: rest).takeWhile (fun x => x = '\n'), x ≠ '[' := by
              intro x hx heq
              have := hnl x hx
              rw [heq] at this
              exact absurd this (by decide)
            have h2 := splitAtNextTag_append_no_tag
              ((c :: rest).takeWhile (fun x => x = '\n'))
              ((c :: rest).dropWhile (fun x => x = '\n')) hne2
            rw [hsplit] at h2
            rw [splitAtNextTag_of_isSome _ hdrop] at h2
            refine ⟨(c :: rest).takeWhile (fun x => x = '\n'), hnl, ?_, ?_⟩
            · rw [h2]
              simp
            · rw [h2]
              simp only []
              exact hsplit.symm
          · simp at hempty
        · -- the single trailing newline case
          have : c :: rest = ['\n'] := by simpa using hlast
          rw [this]
          have hm1 : matchTag ['\n'] = none := matchTag_none_of_ne '\n' [] (by decide)
          refine ⟨['\n'], by simp, ?_, ?_⟩
          · simp [splitAtNextTag, hm1]
          · simp [splitAtNextTag, hm1]
    · have hm : matchTag (c :: rest) = none := by
        cases hmm : matchTag (c :: rest) with
        | none => rfl
        | some p =>
          have := matchTag_isSome_tagAhead (c :: rest) (by simp [hmm])
          exact absurd this hta
      obtain ⟨n, hn, h1, h2⟩ := ih
      refine ⟨n, hn, ?_, ?_⟩
      · simp only [splitAtNextTag, takeContent, hm, hta, Option.isSome_none,
          Bool.false_eq_true, if_false]
        rw [h1]
        simp
      · simp only [splitAtNextTag, takeContent, hm, hta, Option.isSome_none,
          Bool.false_eq_true, if_false]
        exact h2

theorem scanSections_append_no_tag (w : List Char) :
    ∀ v : List Char, (∀ c ∈ w, c ≠ '[') →
      scanSections (w ++ v) = scanSections v := by
  induction w with
  | nil => intro v _; simp
  | cons a l ih =>
    intro v hw
    have ha : a ≠ '[' := hw a (List.mem_cons_self a l)
    have hm : matchTag (a :: (l ++ v)) = none := matchTag_none_of_ne a (l ++ v) ha
    rw [List.cons_append, scanSections_cons_none a (l ++ v) hm]
    exact ih v fun c hc => hw c (List.mem_cons_of_mem a hc)

theorem scanSections_eq_spec_aux (N : Nat) :
    ∀ s : List Char, s.length ≤ N → scanSections s = spec_sections s := by
  induction N with
  | zero =>
    intro s hs
    have : s = [] := List.length_eq_zero.mp (Nat.le_zero.mp hs)
    subst this
    rfl
  | succ N ih =>
    intro s hs
    match s with
    | [] => rfl
    | c :: rest =>
      simp only [List.length_cons] at hs
      cases hm : matchTag (c :: rest) with
      | none =>
        rw [scanSections_cons_none c rest hm, specSections_cons_none c rest hm]
        exact ih rest (by omega)
      | some p =>
        obtain ⟨w, afterTag⟩ := p
        rw [scanSections_cons_some c rest w afterTag hm,
          specSections_cons_some c rest w afterTag hm]
        have haft : afterTag.length < rest.length + 1 :=
          matchTag_rest_length (c :: rest) w afterTag hm
        -- decompose afterTag into its whitespace run and the rest
        have hWsplit : afterTag.takeWhile isSpaceChar ++
            afterTag.dropWhile isSpaceChar = afterTag :=
          List.takeWhile_append_dropWhile _ _
        have hWsp : ∀ x ∈ afterTag.takeWhile isSpaceChar, isSpaceChar x = true :=
          fun x hx => List.mem_takeWhile_imp hx
        have hWnb : ∀ x ∈ afterTag.takeWhile isSpaceChar, x ≠ '[' :=
          fun x hx => isSpaceChar_ne_bracket x (hWsp x hx)
        have hsplit := splitAtNextTag_append_no_tag
          (afterTag.takeWhile isSpaceChar) (afterTag.dropWhile isSpaceChar) hWnb
        rw [hWsplit] at hsplit
        obtain ⟨n, hn, h1, h2⟩ := content_rel (afterTag.dropWhile isSpaceChar)
        have hnsp : ∀ x ∈ n, isSpaceChar x = true := by
          intro x hx
          rw [hn x hx]
          decide
        have hnnb : ∀ x ∈ n, x ≠ '[' := by
          intro x hx heq
          have := hn x hx
          rw [heq] at this
          exact absurd this (by decide)
        have hhead : strip (takeContent (afterTag.dropWhile isSpaceChar)).1 =
            strip (splitAtNextTag afterTag).1 := by
          rw [hsplit]
          simp only []
          rw [h1, strip_append_left_spaces _ _ hWsp,
            strip_append_right_spaces _ _ hnsp]
        have htail : scanSections (takeContent (afterTag.dropWhile isSpaceChar)).2 =
            spec_sections (splitAtNextTag afterTag).2 := by
          rw [hsplit]
          simp only []
          rw [h2, scanSections_append_no_tag n _ hnnb]
          have hlen : ((splitAtNextTag (afterTag.dropWhile isSpaceChar)).2).length ≤ N := by
            have g1 : ((splitAtNextTag (afterTag.dropWhile isSpaceChar)).2).length ≤
                (afterTag.dropWhile isSpaceChar).length :=
              splitAtNextTag_snd_length _
            have g2 : (afterTag.dropWhile isSpaceChar).length ≤ afterTag.length :=
              dropWhile_len_le _ _
            omega
          exact ih _ hlen
        rw [hhead, htail]

/-- Core equivalence: the regex scan of `extract_sections` produces exactly
the association list described by the specification's words. -/
theorem scanSections_eq_spec (s : List Char) : scanSections s = spec_sections s :=
  scanSections_eq_spec_aux s.length s le_rfl

theorem sections_get_eq_filter_getLast (d : List (List Char × List Char))
    (k : List Char) :
    sections_get d k = ((d.filter fun e => e.1 = k).getLast?).map (·.2) := by
  induction d using List.reverseRecOn with
  | nil => rfl
  | append_singleton l a ih =>
    simp only [sections_get, List.reverse_append, List.reverse_singleton,
      List.singleton_append, List.filter_append] at ih ⊢
    by_cases hp : a.1 = k
    · rw [List.find?_cons_of_pos _ (by simp [hp])]
      have hfa : List.filter (fun e => decide (e.1 = k)) [a] = [a] := by simp [hp]
      rw [hfa, List.getLast?_concat]
    · rw [List.find?_cons_of_neg _ (by simp [hp])]
      have hfa : List.filter (fun e => decide (e.1 = k)) [a] = [] := by simp [hp]
      rw [hfa, List.append_nil]
      exact ih

/-- C1: for every response string, `extract_sections` returns a dict whose
keys are exactly the distinct single-word tags (word characters only) that
appear in square brackets in the response, lowercased, and whose value for
each tag is the text following that tag occurrence up to (but not including)
the next bracketed single-word tag or the end of the string, with leading and
trailing whitespace stripped.  Formally: the association list computed by the
regex scan equals, entry for entry, the claim-side list `spec_sections`
(one entry per bracketed tag occurrence, key lowercased, value the stripped
following text); hence the two dict views agree on all keys and values. -/
theorem extract_sections_matches_spec (response : List Char) :
    extract_sections response = spec_sections response :=
  scanSections_eq_spec response

/-- C10: for every response string in which the same bracketed tag name
occurs more than once, `extract_sections` maps that tag to the stripped
content of its last occurrence: the dict lookup returns the value of the
last claim-side entry for that tag. -/
theorem extract_sections_last_occurrence (s t : List Char)
    (h : 2 ≤ ((spec_sections s).filter fun e => e.1 = t).length) :
    sections_get (extract_sections s) t =
      (((spec_sections s).filter fun e => e.1 = t).getLast?).map (·.2) := by
  rw [extract_sections, scanSections_eq_spec]
  exact sections_get_eq_filter_getLast (spec_sections s) t

/-- Witness for C10 at a concrete response with a duplicated tag: the value
returned for `a` is the stripped content after the second `[a]`. -/
theorem extract_sections_last_occurrence_witness :
    2 ≤ ((spec_sections (str "[a]first[b]mid[a] second ")).filter
          fun e => e.1 = str "a").length ∧
    sections_get (extract_sections (str "[a]first[b]mid[a] second ")) (str "a") =
      (((spec_sections (str "[a]first[b]mid[a] second ")).filter
          fun e => e.1 = str "a").getLast?).map (·.2) :=
  ⟨by decide,
   extract_sections_last_occurrence (str "[a]first[b]mid[a] second ") (str "a")
     (by decide)⟩

/-- C5: for every book id and every progress object containing a
`chapter_number` key, loading right after saving returns the object saved
(the `chapter_number`-backfill branch of `load_progress` does not fire). -/
theorem save_load_progress_roundtrip (store : Store) (book_id : List Char)
    (p : Pdict) (count : Option Nat)
    (h : (pget p (str "chapter_number")).isSome) :
    load_progress (save_progress store book_id p) book_id count = p := by
  simp only [load_progress, save_progress, lookupStore]
  rw [List.find?_cons_of_pos _ (by simp)]
  simp [h]

/-- Witness for C5 at a concrete store and progress object. -/
theorem save_load_progress_roundtrip_witness :
    ((pget default_progress (str "chapter_number")).isSome = true) ∧
    load_progress (save_progress [] (str "mybook") default_progress)
      (str "mybook") none = default_progress :=
  ⟨by decide,
   save_load_progress_roundtrip [] (str "mybook") default_progress none (by decide)⟩

/-- C3: for every LLM response whose parsed sections contain no nonempty
`chapter` section, `new_chapter` raises `ValueError` with only the LLM call
in its trace: no progress is persisted and no chapter text or audio file is
written, so the persisted state is unchanged on error. -/
theorem new_chapter_missing_chapter_raises (spec : List Char) (progress : Pdict)
    (response : List Char) (skip : Bool) (prompt : List Char)
    (hp : generate_chapter_prompt spec progress = some prompt)
    (hc : sections_get (extract_sections response) (str "chapter") = none ∨
          sections_get (extract_sections response) (str "chapter") = some []) :
    new_chapter spec progress response skip =
      ([Event.llmCall prompt], Except.error PyErr.valueError) := by
  have hcc : chapterContentOf response = [] := by
    rcases hc with h | h <;> simp [chapterContentOf, h]
  simp only [new_chapter, hp]
  simp [hcc]

/-- Witness for C3 at a concrete response with no `chapter` section. -/
theorem new_chapter_missing_chapter_raises_witness :
    (sections_get (extract_sections (str "[summary]\nS")) (str "chapter") = none ∨
     sections_get (extract_sections (str "[summary]\nS")) (str "chapter") = some []) ∧
    new_chapter (str "sp") default_progress (str "[summary]\nS") true =
      ([Event.llmCall ((generate_chapter_prompt (str "sp") default_progress).getD [])],
        Except.error PyErr.valueError) :=
  ⟨Or.inl (by decide),
   new_chapter_missing_chapter_raises (str "sp") default_progress
     (str "[summary]\nS") true
     ((generate_chapter_prompt (str "sp") default_progress).getD [])
     (by decide) (Or.inl (by decide))⟩

/-- C8: for every loaded progress state (with its string checkpoint, string
summaries and numeric chapter counter), the prompt of the next LLM call
contains the persisted checkpoint text verbatim, the accumulated summaries
verbatim (with `N/A` substituted when the summaries string is empty), and the
request for chapter `chapter_number + 1`. -/
theorem generate_chapter_prompt_contents (spec : List Char) (progress : Pdict)
    (cp sm : List Char) (n : Nat)
    (hcp : pget progress (str "checkpoint") = some (PVal.vstr cp))
    (hsm : pget progress (str "summaries") = some (PVal.vstr sm))
    (hn : pget progress (str "chapter_number") = some (PVal.vnum n)) :
    ∃ prompt, generate_chapter_prompt spec progress = some prompt ∧
      cp <:+: prompt ∧
      (if sm.isEmpty then str "N/A" else sm) <:+: prompt ∧
      (str "**Please write chapter " ++ str (Nat.repr (n + 1)) ++ str ".**") <:+:
        prompt := by
  have hbase : nextChapterBase progress = some n := by simp [nextChapterBase, hn]
  refine ⟨str "\n[book specification]\n" ++ spec ++ str "\n\n[summaries]\n" ++
      (if sm.isEmpty then str "N/A" else sm) ++ str "\n\n[last checkpoint]\n" ++ cp ++
      str "\n\n**Please write chapter " ++ str (Nat.repr (n + 1)) ++ str ".**\n",
    ?_, ?_, ?_, ?_⟩
  · simp only [generate_chapter_prompt, hbase, hcp, hsm, Option.getD_some]
    simp [pvalFalsy, pvalFormat]
  · exact ⟨str "\n[book specification]\n" ++ spec ++ str "\n\n[summaries]\n" ++
      (if sm.isEmpty then str "N/A" else sm) ++ str "\n\n[last checkpoint]\n",
      str "\n\n**Please write chapter " ++ str (Nat.repr (n + 1)) ++ str ".**\n",
      by simp [List.append_assoc]⟩
  · exact ⟨str "\n[book specification]\n" ++ spec ++ str "\n\n[summaries]\n",
      str "\n\n[last checkpoint]\n" ++ cp ++
        str "\n\n**Please write chapter " ++ str (Nat.repr (n + 1)) ++ str ".**\n",
      by simp [List.append_assoc]⟩
  · refine ⟨str "\n[book specification]\n" ++ spec ++ str "\n\n[summaries]\n" ++
      (if sm.isEmpty then str "N/A" else sm) ++ str "\n\n[last checkpoint]\n" ++ cp ++
      str "\n\n", str "\n", ?_⟩
    rw [show str "\n\n**Please write chapter " =
      str "\n\n" ++ str "**Please write chapter " from rfl]
    rw [show str ".**\n" = str ".**" ++ str "\n" from rfl]
    simp [List.append_assoc]

/-- Witness for C8 at a concrete progress object with nonempty summaries. -/
theorem generate_chapter_prompt_contents_witness :
    (pget [(str "checkpoint", PVal.vstr (str "CPTEXT")),
           (str "summaries", PVal.vstr (str "SUMTEXT")),
           (str "chapter_number", PVal.vnum 5)] (str "checkpoint") =
        some (PVal.vstr (str "CPTEXT"))) ∧
    ∃ prompt, generate_chapter_prompt (str "SPEC")
        [(str "checkpoint", PVal.vstr (str "CPTEXT")),
         (str "summaries", PVal.vstr (str "SUMTEXT")),
         (str "chapter_number", PVal.vnum 5)] = some prompt ∧
      str "CPTEXT" <:+: prompt ∧
      (if (str "SUMTEXT").isEmpty then str "N/A" else str "SUMTEXT") <:+: prompt ∧
      (str "**Please write chapter " ++ str (Nat.repr 6) ++ str ".**") <:+: prompt :=
  ⟨by decide,
   generate_chapter_prompt_contents (str "SPEC")
     [(str "checkpoint", PVal.vstr (str "CPTEXT")),
      (str "summaries", PVal.vstr (str "SUMTEXT")),
      (str "chapter_number", PVal.vnum 5)]
     (str "CPTEXT") (str "SUMTEXT") 5 (by decide) (by decide) (by decide)⟩

/-- C4: every successful chapter generation persists a progress object whose
`chapter_number` is the loaded one plus one and whose `summaries` is the
loaded summaries with exactly one `### Chapter n Summary:` block (for the new
chapter number) followed by the parsed chapter summary appended, then
stripped. -/
theorem new_chapter_progress_update (spec : List Char) (progress : Pdict)
    (response : List Char) (skip : Bool) (n : Nat) (sm : List Char)
    (hn : pget progress (str "chapter_number") = some (PVal.vnum n))
    (hsm : pget progress (str "summaries") = some (PVal.vstr sm))
    (hch : chapterContentOf response ≠ []) :
    ∃ p : Pdict,
      Event.savedProgress p ∈ (new_chapter spec progress response skip).1 ∧
      pget p (str "chapter_number") = some (PVal.vnum (n + 1)) ∧
      pget p (str "summaries") =
        some (PVal.vstr
          (strip (sm ++ summaryBlock (n + 1) (summaryContentOf response)))) := by
  have hbase : nextChapterBase progress = some n := by simp [nextChapterBase, hn]
  have hsums : getSummariesStr progress = some sm := by simp [getSummariesStr, hsm]
  have hie : (chapterContentOf response).isEmpty = false := by
    cases hcc : chapterContentOf response with
    | nil => exact absurd hcc hch
    | cons a l => rfl
  simp only [new_chapter, generate_chapter_prompt, hbase, hsums, hie,
    Bool.false_eq_true, if_false]
  split
  · exact ⟨[(str "last_chapter", PVal.vstr (pyRemove (chapterContentOf response) theEnd)),
      (str "checkpoint", PVal.vstr (str "DONE")),
      (str "chapter_number", PVal.vnum (n + 1)),
      (str "summaries", PVal.vstr
        (strip (sm ++ summaryBlock (n + 1) (summaryContentOf response))))],
      by simp [mkChapterTrace], rfl, rfl⟩
  · exact ⟨[(str "last_chapter", PVal.vstr (chapterContentOf response)),
      (str "checkpoint", PVal.vstr ((checkpointOf response).getD [])),
      (str "chapter_number", PVal.vnum (n + 1)),
      (str "summaries", PVal.vstr
        (strip (sm ++ summaryBlock (n + 1) (summaryContentOf response))))],
      by simp [mkChapterTrace], rfl, rfl⟩

/-- Witness for C4 at a concrete response and the default progress object. -/
theorem new_chapter_progress_update_witness :
    (chapterContentOf (str "[chapter]\nHi.\n[summary]\nS.\n[checkpoint]\nCP") ≠ []) ∧
    ∃ p : Pdict,
      Event.savedProgress p ∈
        (new_chapter (str "sp") default_progress
          (str "[chapter]\nHi.\n[summary]\nS.\n[checkpoint]\nCP") true).1 ∧
      pget p (str "chapter_number") = some (PVal.vnum 1) ∧
      pget p (str "summaries") =
        some (PVal.vstr (strip ([] ++ summaryBlock 1
          (summaryContentOf (str "[chapter]\nHi.\n[summary]\nS.\n[checkpoint]\nCP"))))) :=
  ⟨by decide,
   new_chapter_progress_update (str "sp") default_progress
     (str "[chapter]\nHi.\n[summary]\nS.\n[checkpoint]\nCP") true 0 []
     (by decide) (by decide) (by decide)⟩

/-- C7: when audio concatenation is requested, the chapter audio files are
handed to the external tool sorted by the numeric chapter number parsed from
each filename (a permutation of the glob result in nondecreasing numeric key
order, not lexicographic filename order); when no chapter audio files exist,
the external tool is not invoked and no output is produced (empty trace). -/
theorem concat_audio_files_order (files : List (List Char)) (out : List Char) :
    concat_audio_files [] out = ([], Except.ok ()) ∧
    (files ≠ [] → (∀ f ∈ files, (chapterNumOf f).isSome = true) →
      concat_audio_files files out =
        ([Event.ranFfmpeg (sortWavFiles files) out], Except.ok ()) ∧
      (sortWavFiles files).Perm files ∧
      (sortWavFiles files).Sorted wavLe) := by
  refine ⟨rfl, fun hne hall => ⟨?_, ?_, ?_⟩⟩
  · have h1 : (files.any fun f => (chapterNumOf f).isNone) = false := by
      rw [List.any_eq_false]
      intro f hf
      have hs := hall f hf
      cases hgo : chapterNumOf f with
      | none => rw [hgo] at hs; simp at hs
      | some n => simp [hgo]
    have h2 : files.isEmpty = false := by
      cases files with
      | nil => exact absurd rfl hne
      | cons a l => rfl
    simp only [concat_audio_files, h1, h2, Bool.false_eq_true, if_false]
  · exact List.perm_insertionSort wavLe files
  · exact List.sorted_insertionSort wavLe files

/-- Witness for C7 at two concrete filenames whose numeric order (2 before
10) is the reverse of their lexicographic order. -/
theorem concat_audio_files_order_witness :
    ([str "b_chapter_10.wav", str "b_chapter_2.wav"] ≠ ([] : List (List Char))) ∧
    (∀ f ∈ [str "b_chapter_10.wav", str "b_chapter_2.wav"],
      (chapterNumOf f).isSome = true) ∧
    (concat_audio_files [str "b_chapter_10.wav", str "b_chapter_2.wav"]
        (str "out.wav") =
      ([Event.ranFfmpeg (sortWavFiles [str "b_chapter_10.wav", str "b_chapter_2.wav"])
          (str "out.wav")], Except.ok ()) ∧
      (sortWavFiles [str "b_chapter_10.wav", str "b_chapter_2.wav"]).Perm
        [str "b_chapter_10.wav", str "b_chapter_2.wav"] ∧
      (sortWavFiles [str "b_chapter_10.wav", str "b_chapter_2.wav"]).Sorted wavLe) :=
  ⟨by decide, by decide,
   (concat_audio_files_order [str "b_chapter_10.wav", str "b_chapter_2.wav"]
     (str "out.wav")).2 (by decide) (by decide)⟩

/-- C2 counterexample: on a successful chapter generation the trace is NOT
of the order the claim states (LLM call, persist, TTS, then the file
writes): the chapter text file is written at position 2, before the TTS call
at position 3.  `specTraceShape` is the claim's order; it is false on the
actual trace even though the run succeeded and generated a chapter. -/
theorem new_chapter_write_before_tts_cex :
    isOkResult (new_chapter (str "sp") default_progress
      (str "[chapter]\nHi.\n[summary]\nS.\n[checkpoint]\nCP") false).2 = true ∧
    specTraceShape (new_chapter (str "sp") default_progress
      (str "[chapter]\nHi.\n[summary]\nS.\n[checkpoint]\nCP") false).1 = false ∧
    ((new_chapter (str "sp") default_progress
      (str "[chapter]\nHi.\n[summary]\nS.\n[checkpoint]\nCP") false).1).get? 2 =
      some (Event.wroteText 1 (str "Hi.")) ∧
    ((new_chapter (str "sp") default_progress
      (str "[chapter]\nHi.\n[summary]\nS.\n[checkpoint]\nCP") false).1).get? 3 =
      some (Event.ttsCall (str "Hi.")) := by
  decide

/-- C2 (amended): for each chapter it successfully generates, the program
performs, in this order: exactly one LLM text-generation request, parsing of
the tagged response, persisting the new progress checkpoint, writing the
chapter text file, and then — unless audio is skipped — exactly one TTS
request followed by the writing of the chapter audio file. -/
theorem new_chapter_trace_order (spec : List Char) (progress : Pdict)
    (response : List Char) (skip : Bool) (n : Nat) (sm : List Char)
    (hn : pget progress (str "chapter_number") = some (PVal.vnum n))
    (hsm : pget progress (str "summaries") = some (PVal.vstr sm))
    (hch : chapterContentOf response ≠ []) :
    ∃ prompt p content,
      (new_chapter spec progress response skip).1 =
        [Event.llmCall prompt, Event.savedProgress p,
         Event.wroteText (n + 1) content] ++
          (if skip then []
           else [Event.ttsCall content, Event.wroteAudio (n + 1)]) := by
  have hbase : nextChapterBase progress = some n := by simp [nextChapterBase, hn]
  have hsums : getSummariesStr progress = some sm := by simp [getSummariesStr, hsm]
  have hie : (chapterContentOf response).isEmpty = false := by
    cases hcc : chapterContentOf response with
    | nil => exact absurd hcc hch
    | cons a l => rfl
  simp only [new_chapter, generate_chapter_prompt, hbase, hsums, hie,
    Bool.false_eq_true, if_false]
  split
  · exact ⟨_, _, _, rfl⟩
  · exact ⟨_, _, _, rfl⟩

/-- Witness for the amended C2 at a concrete successful run with audio. -/
theorem new_chapter_trace_order_witness :
    (chapterContentOf (str "[chapter]\nHi.\n[summary]\nS.\n[checkpoint]\nCP") ≠ []) ∧
    ∃ prompt p content,
      (new_chapter (str "sp") default_progress
        (str "[chapter]\nHi.\n[summary]\nS.\n[checkpoint]\nCP") false).1 =
        [Event.llmCall prompt, Event.savedProgress p, Event.wroteText 1 content] ++
          (if false then [] else [Event.ttsCall content, Event.wroteAudio 1]) :=
  ⟨by decide,
   new_chapter_trace_order (str "sp") default_progress
     (str "[chapter]\nHi.\n[summary]\nS.\n[checkpoint]\nCP") false 0 []
     (by decide) (by decide) (by decide)⟩

theorem pget_append_right_of_none (p q : Pdict) (k : List Char)
    (h : pget p k = none) : pget (p ++ q) k = pget q k := by
  simp only [pget] at h ⊢
  rw [List.find?_append]
  have hf : p.find? (fun e => decide (e.1 = k)) = none := by
    cases hf : p.find? (fun e => decide (e.1 = k)) with
    | none => rfl
    | some e => rw [hf] at h; simp at h
  rw [hf]
  simp

theorem savedDicts_mkChapterTrace (P : List Char) (D : Pdict) (n : Nat)
    (C : List Char) (skip : Bool) :
    savedDicts (mkChapterTrace P D n C skip) = [D] := by
  cases skip <;> rfl

/-- C6 counterexample: the script itself computes chapter numbers.  Starting
from the default progress whose `chapter_number` is `0`, a successful
`new_chapter` run persists a progress object whose `chapter_number` is `1`
and names the chapter files with it — the number is computed by the script
(line 207), not delegated to the external media tool. -/
theorem script_computes_chapter_number_cex :
    pget default_progress (str "chapter_number") = some (PVal.vnum 0) ∧
    (savedDicts (new_chapter (str "sp") default_progress
        (str "[chapter]\nHi.\n[summary]\nS.\n[checkpoint]\nCP") true).1).map
      (fun p => pget p (str "chapter_number")) = [some (PVal.vnum 1)] ∧
    Event.wroteText 1 (str "Hi.") ∈
      (new_chapter (str "sp") default_progress
        (str "[chapter]\nHi.\n[summary]\nS.\n[checkpoint]\nCP") true).1 := by
  decide

/-- C6 (amended): chapter numbering is performed by the script itself, not
by the external media tool: `new_chapter` computes the new chapter number as
the persisted `chapter_number` plus one, persists it and uses it to name the
chapter text file (line 207), and `load_progress` backfills a missing
`chapter_number` by counting the existing chapter text files (lines 29-36);
the external tool is only used for audio concatenation and filtering. -/
theorem chapter_numbering_in_script :
    (∀ (spec : List Char) (progress : Pdict) (response : List Char) (skip : Bool)
        (n : Nat) (sm : List Char),
      pget progress (str "chapter_number") = some (PVal.vnum n) →
      pget progress (str "summaries") = some (PVal.vstr sm) →
      chapterContentOf response ≠ [] →
      (savedDicts (new_chapter spec progress response skip).1).map
          (fun p => pget p (str "chapter_number")) = [some (PVal.vnum (n + 1))] ∧
        ∃ content, Event.wroteText (n + 1) content ∈
          (new_chapter spec progress response skip).1) ∧
    (∀ (store : Store) (book_id : List Char) (p0 : Pdict) (k : Nat),
      lookupStore store book_id = some p0 →
      pget p0 (str "chapter_number") = none →
      pget (load_progress store book_id (some k)) (str "chapter_number") =
        some (PVal.vnum k)) := by
  constructor
  · intro spec progress response skip n sm hn hsm hch
    have hbase : nextChapterBase progress = some n := by simp [nextChapterBase, hn]
    have hsums : getSummariesStr progress = some sm := by simp [getSummariesStr, hsm]
    have hie : (chapterContentOf response).isEmpty = false := by
      cases hcc : chapterContentOf response with
      | nil => exact absurd hcc hch
      | cons a l => rfl
    simp only [new_chapter, generate_chapter_prompt, hbase, hsums, hie,
      Bool.false_eq_true, if_false]
    split
    · refine ⟨by rw [savedDicts_mkChapterTrace]; rfl,
        ⟨pyRemove (chapterContentOf response) theEnd, ?_⟩⟩
      simp [mkChapterTrace]
    · refine ⟨by rw [savedDicts_mkChapterTrace]; rfl,
        ⟨chapterContentOf response, ?_⟩⟩
      simp [mkChapterTrace]
  · intro store book_id p0 k hlk hmiss
    simp only [load_progress, hlk, hmiss, Option.isSome_none, Bool.false_eq_true,
      if_false]
    rw [pget_append_right_of_none p0 _ _ hmiss]
    rfl

/-- Witness for the amended C6 at concrete inputs for both conjuncts. -/
theorem chapter_numbering_in_script_witness :
    ((savedDicts (new_chapter (str "sp") default_progress
        (str "[chapter]\nHi.\n[summary]\nS.\n[checkpoint]\nCP") true).1).map
      (fun p => pget p (str "chapter_number")) = [some (PVal.vnum 1)] ∧
      ∃ content, Event.wroteText 1 content ∈
        (new_chapter (str "sp") default_progress
          (str "[chapter]\nHi.\n[summary]\nS.\n[checkpoint]\nCP") true).1) ∧
    pget (load_progress [(str "bk", [(str "checkpoint", PVal.vstr (str "x"))])]
        (str "bk") (some 7)) (str "chapter_number") = some (PVal.vnum 7) :=
  ⟨chapter_numbering_in_script.1 (str "sp") default_progress
     (str "[chapter]\nHi.\n[summary]\nS.\n[checkpoint]\nCP") true 0 []
     (by decide) (by decide) (by decide),
   chapter_numbering_in_script.2 [(str "bk", [(str "checkpoint", PVal.vstr (str "x"))])]
     (str "bk") [(str "checkpoint", PVal.vstr (str "x"))] 7 (by decide) (by decide)⟩

theorem mem_dropWhile_imp_mem (p : Char → Bool) (l : List Char) (c : Char)
    (h : c ∈ l.dropWhile p) : c ∈ l := by
  induction l with
  | nil => simpa using h
  | cons a t ih =>
    by_cases ha : p a
    · simp only [List.dropWhile, ha] at h
      exact List.mem_cons_of_mem a (ih h)
    · simp only [List.dropWhile, ha] at h
      exact h

theorem mem_strip_imp_mem (l : List Char) (c : Char) (h : c ∈ strip l) : c ∈ l := by
  simp only [strip, rstrip, lstrip] at h
  rw [List.mem_reverse] at h
  have h2 := mem_dropWhile_imp_mem _ _ _ h
  rw [List.mem_reverse] at h2
  exact mem_dropWhile_imp_mem _ _ _ h2

theorem matchTag_word (s w r : List Char) (h : matchTag s = some (w, r)) :
    ∀ c ∈ w, isWordChar c = true := by
  match s with
  | [] => simp [matchTag] at h
  | a :: rest =>
    by_cases hc : a = '['
    · subst hc
      simp only [matchTag, if_pos rfl] at h
      by_cases hw : (rest.takeWhile isWordChar).isEmpty
      · simp [hw] at h
      · simp only [hw, Bool.false_eq_true, if_false] at h
        match hd : rest.dropWhile isWordChar with
        | [] => rw [hd] at h; simp at h
        | b :: r2 =>
          rw [hd] at h
          by_cases hb : b = ']'
          · subst hb
            simp at h
            intro c hc2
            rw [← h.1] at hc2
            exact List.mem_takeWhile_imp hc2
          · have : (match b :: r2 with
              | ']' :: r2 => some (rest.takeWhile isWordChar, r2)
              | _ => none) = (none : Option (List Char × List Char)) := by
              cases b
              simp_all [Char.ext_iff]
            rw [this] at h
            simp at h
    · rw [matchTag_none_of_ne a rest hc] at h
      simp at h

theorem scanAux_keys_word (f : Nat) :
    ∀ (s : List Char) (e : List Char × List Char), e ∈ scanAux f s →
      ∀ c ∈ e.1, ∃ c₀, isWordChar c₀ = true ∧ c = Char.toLower c₀ := by
  induction f with
  | zero => intro s e he; simp [scanAux] at he
  | succ f ih =>
    intro s e he
    match s with
    | [] => simp [scanAux] at he
    | a :: rest =>
      cases hm : matchTag (a :: rest) with
      | none =>
        simp only [scanAux, hm] at he
        exact ih rest e he
      | some q =>
        obtain ⟨w, aft⟩ := q
        simp only [scanAux, hm] at he
        rcases List.mem_cons.mp he with heq | htl
        · intro c hc
          rw [heq] at hc
          simp only [tagName] at hc
          obtain ⟨c₀, hc₀, hlow⟩ := List.mem_map.mp hc
          exact ⟨c₀, matchTag_word (a :: rest) w aft hm c₀
            (mem_strip_imp_mem w c₀ hc₀), hlow.symm⟩
        · exact ih _ e htl

theorem toLower_word_ne_space (c : Char) (h : isWordChar c = true) :
    Char.toLower c ≠ ' ' := by
  intro heq
  by_cases hc : c.toNat ≥ 65 ∧ c.toNat ≤ 90
  · have hv : (c.toNat + 32).isValidChar := by
      unfold Nat.isValidChar
      omega
    have h1 : Char.toLower c = Char.ofNat (c.toNat + 32) := by
      unfold Char.toLower
      rw [if_pos hc]
    have h2 : (Char.ofNat (c.toNat + 32)).toNat = c.toNat + 32 := by
      unfold Char.ofNat
      rw [dif_pos hv]
      rfl
    rw [h1] at heq
    rw [heq] at h2
    have h3 : (' ' : Char).toNat = 32 := rfl
    omega
  · have h1 : Char.toLower c = c := by
      unfold Char.toLower
      rw [if_neg hc]
    rw [h1] at heq
    subst heq
    exact absurd h (by decide)

/-- A parsed section key consists of lowercased word characters only, so a
key containing a space (such as `last checkpoint`) is never present. -/
theorem sections_get_space_key_none (s k : List Char) (hk : ' ' ∈ k) :
    sections_get (extract_sections s) k = none := by
  cases hfind : (extract_sections s).reverse.find? (fun e => e.1 = k) with
  | none => simp [sections_get, hfind]
  | some e =>
    exfalso
    have hmem : e ∈ (extract_sections s).reverse := List.mem_of_find?_eq_some hfind
    have hpred := List.find?_some hfind
    have hek : e.1 = k := of_decide_eq_true hpred
    have hmem2 : e ∈ scanAux s.length s := by
      have := List.mem_reverse.mp hmem
      simpa [extract_sections, scanSections] using this
    rw [← hek] at hk
    obtain ⟨c₀, hw, hc⟩ := scanAux_keys_word s.length s e hmem2 ' ' hk
    exact toLower_word_ne_space c₀ hw hc.symm

/-- The `or`-chain of line 202 is falsy exactly when the parsed `checkpoint`
section is missing or empty: the fallback key `last checkpoint` contains a
space and can never be a parsed section key. -/
theorem optFalsy_checkpointOf (response : List Char) :
    optFalsy (checkpointOf response) = true ↔
      (sections_get (extract_sections response) (str "checkpoint") = none ∨
       sections_get (extract_sections response) (str "checkpoint") = some []) := by
  have hlc : sections_get (extract_sections response) (str "last checkpoint") = none :=
    sections_get_space_key_none response (str "last checkpoint") (by decide)
  unfold checkpointOf
  rw [hlc]
  cases hg : sections_get (extract_sections response) (str "checkpoint") with
  | none => simp [orFalsy, optFalsy]
  | some s2 =>
    cases s2 with
    | nil => simp [orFalsy, optFalsy]
    | cons a l => simp [orFalsy, optFalsy]

theorem pget_append_left_of_some (p q : Pdict) (k : List Char) (v : PVal)
    (h : pget p k = some v) : pget (p ++ q) k = some v := by
  simp only [pget] at h ⊢
  rw [List.find?_append]
  obtain ⟨e, he, hv⟩ := Option.map_eq_some'.mp h
  rw [he]
  simpa using hv

theorem concat_audio_no_llm_tts (files : List (List Char)) (out : List Char) :
    ∀ e ∈ (concat_audio_files files out).1,
      isLlmCall e = false ∧ isTtsCall e = false := by
  intro e he
  simp only [concat_audio_files] at he
  split at he
  · simp at he
  · split at he
    · simp at he
    · simp only [List.mem_singleton] at he
      rw [he]
      exact ⟨rfl, rfl⟩

theorem main_done_trace (store : Store) (book_id spec : List Char)
    (chaptersDir : Option (List (Nat × List Char))) (wavExists : Nat → Bool)
    (wavFiles : List (List Char)) (oracle : Nat → List Char) (args : Args)
    (p : Pdict)
    (hreg : args.regen_audio = false)
    (hlk : lookupStore store book_id = some p)
    (hcp : pget p (str "checkpoint") = some (PVal.vstr (str "DONE"))) :
    ∀ e ∈ (main_run store book_id spec chaptersDir wavExists wavFiles oracle args).1,
      isLlmCall e = false ∧ isTtsCall e = false := by
  have hcp2 : pget (load_progress store book_id (chaptersDir.map List.length))
      (str "checkpoint") = some (PVal.vstr (str "DONE")) := by
    simp only [load_progress, hlk]
    by_cases hnum : (pget p (str "chapter_number")).isSome
    · rw [if_pos hnum]
      exact hcp
    · rw [if_neg hnum]
      exact pget_append_left_of_some p _ _ _ hcp
  intro e he
  simp only [main_run, hreg, Bool.false_eq_true, if_false, hcp2, if_pos rfl] at he
  cases hca : args.concat_audio with
  | none =>
    rw [hca] at he
    simp at he
  | some out =>
    rw [hca] at he
    simp only [List.nil_append] at he
    exact concat_audio_no_llm_tts wavFiles out e he

theorem new_chapter_done_cases (spec : List Char) (progress : Pdict)
    (response : List Char) (skip : Bool) (n : Nat) (sm : List Char)
    (hn : pget progress (str "chapter_number") = some (PVal.vnum n))
    (hsm : pget progress (str "summaries") = some (PVal.vstr sm))
    (hch : chapterContentOf response ≠ []) :
    ((new_chapter spec progress response skip).2 = Except.ok none ↔
      (containsTheEnd response = true ∨
       sections_get (extract_sections response) (str "checkpoint") = none ∨
       sections_get (extract_sections response) (str "checkpoint") = some [])) ∧
    ((new_chapter spec progress response skip).2 = Except.ok none →
      (savedDicts (new_chapter spec progress response skip).1).map
        (fun q => pget q (str "checkpoint")) = [some (PVal.vstr (str "DONE"))]) := by
  have hbase : nextChapterBase progress = some n := by simp [nextChapterBase, hn]
  have hsums : getSummariesStr progress = some sm := by simp [getSummariesStr, hsm]
  have hie : (chapterContentOf response).isEmpty = false := by
    cases hcc : chapterContentOf response with
    | nil => exact absurd hcc hch
    | cons a l => rfl
  simp only [new_chapter, generate_chapter_prompt, hbase, hsums, hie,
    Bool.false_eq_true, if_false]
  by_cases hcond : (containsTheEnd response || optFalsy (checkpointOf response)) = true
  · rw [if_pos hcond]
    constructor
    · simp only []
      constructor
      · intro _
        rcases Bool.or_eq_true_iff.mp hcond with h1 | h2
        · exact Or.inl h1
        · exact Or.inr ((optFalsy_checkpointOf response).mp h2)
      · intro _
        trivial
    · intro _
      rw [savedDicts_mkChapterTrace]
      rfl
  · rw [if_neg hcond]
    have hsplit : containsTheEnd response = false ∧
        optFalsy (checkpointOf response) = false := by
      rcases Bool.or_eq_false_iff.mp (Bool.of_not_eq_true hcond) with ⟨h1, h2⟩
      exact ⟨h1, h2⟩
    constructor
    · constructor
      · intro habs
        simp at habs
      · intro habs
        rcases habs with h1 | h2
        · rw [hsplit.1] at h1
          simp at h1
        · have := (optFalsy_checkpointOf response).mpr h2
          rw [hsplit.2] at this
          simp at this
    · intro habs
      simp at habs

/-- C9 counterexample: the claim's "exactly when ... no checkpoint section"
is false.  On a response whose `[checkpoint]` section is present but empty
(and which does not contain `<the end>`), `new_chapter` still sets the
persisted checkpoint to `DONE` and ends the loop (returns `None`), because
line 209 tests truthiness, and an empty string is falsy. -/
theorem empty_checkpoint_marks_done_cex :
    containsTheEnd (str "[chapter]\nHi.\n[summary]\nS.\n[checkpoint]\n") = false ∧
    (sections_get (extract_sections
        (str "[chapter]\nHi.\n[summary]\nS.\n[checkpoint]\n"))
      (str "checkpoint")).isSome = true ∧
    (new_chapter (str "sp") default_progress
      (str "[chapter]\nHi.\n[summary]\nS.\n[checkpoint]\n") true).2 =
        Except.ok none ∧
    (savedDicts (new_chapter (str "sp") default_progress
        (str "[chapter]\nHi.\n[summary]\nS.\n[checkpoint]\n") true).1).map
      (fun q => pget q (str "checkpoint")) = [some (PVal.vstr (str "DONE"))] := by
  decide

/-- C9 (amended): once the persisted checkpoint equals `DONE`, a subsequent
run of `main` with `--regen-audio` not set makes no LLM or TTS call for that
book (with `--regen-audio`, missing chapter audio is regenerated by TTS
regardless of completion); and a successful `new_chapter` sets the persisted
checkpoint to `DONE` and ends the generation loop exactly when the response
contains `<the end>` case-insensitively or its parsed `checkpoint` section
is missing or empty. -/
theorem done_checkpoint_halts :
    (∀ (store : Store) (book_id spec : List Char)
        (chaptersDir : Option (List (Nat × List Char))) (wavExists : Nat → Bool)
        (wavFiles : List (List Char)) (oracle : Nat → List Char) (args : Args)
        (p : Pdict),
      args.regen_audio = false →
      lookupStore store book_id = some p →
      pget p (str "checkpoint") = some (PVal.vstr (str "DONE")) →
      ∀ e ∈ (main_run store book_id spec chaptersDir wavExists wavFiles
          oracle args).1,
        isLlmCall e = false ∧ isTtsCall e = false) ∧
    (∀ (spec : List Char) (progress : Pdict) (response : List Char) (skip : Bool)
        (n : Nat) (sm : List Char),
      pget progress (str "chapter_number") = some (PVal.vnum n) →
      pget progress (str "summaries") = some (PVal.vstr sm) →
      chapterContentOf response ≠ [] →
      ((new_chapter spec progress response skip).2 = Except.ok none ↔
        (containsTheEnd response = true ∨
         sections_get (extract_sections response) (str "checkpoint") = none ∨
         sections_get (extract_sections response) (str "checkpoint") = some [])) ∧
      ((new_chapter spec progress response skip).2 = Except.ok none →
        (savedDicts (new_chapter spec progress response skip).1).map
          (fun q => pget q (str "checkpoint")) =
            [some (PVal.vstr (str "DONE"))])) :=
  ⟨fun store book_id spec chaptersDir wavExists wavFiles oracle args p
      hreg hlk hcp =>
    main_done_trace store book_id spec chaptersDir wavExists wavFiles oracle
      args p hreg hlk hcp,
   fun spec progress response skip n sm hn hsm hch =>
    new_chapter_done_cases spec progress response skip n sm hn hsm hch⟩

/-- Witness for the amended C9: a `DONE` book produces no LLM/TTS events in
`main`, and a concrete `<the end>`-free response with a nonempty checkpoint
section does not end the loop while one with `<THE END>` does. -/
theorem done_checkpoint_halts_witness :
    (∀ e ∈ (main_run [(str "bk",
          [(str "checkpoint", PVal.vstr (str "DONE")),
           (str "chapter_number", PVal.vnum 2)])]
        (str "bk") (str "sp") none (fun _ => true) [] (fun _ => str "")
        ⟨3, false, false, none⟩).1,
      isLlmCall e = false ∧ isTtsCall e = false) ∧
    ((new_chapter (str "sp") default_progress
        (str "[chapter]\nHi. <THE END>\n[summary]\nS.\n") true).2 =
          Except.ok none ↔
      (containsTheEnd (str "[chapter]\nHi. <THE END>\n[summary]\nS.\n") = true ∨
       sections_get (extract_sections
          (str "[chapter]\nHi. <THE END>\n[summary]\nS.\n"))
         (str "checkpoint") = none ∨
       sections_get (extract_sections
          (str "[chapter]\nHi. <THE END>\n[summary]\nS.\n"))
         (str "checkpoint") = some [])) := by
  constructor
  · intro e he
    refine done_checkpoint_halts.1 [(str "bk",
        [(str "checkpoint", PVal.vstr (str "DONE")),
         (str "chapter_number", PVal.vnum 2)])]
      (str "bk") (str "sp") none (fun _ => true) [] (fun _ => str "")
      ⟨3, false, false, none⟩
      [(str "checkpoint", PVal.vstr (str "DONE")),
       (str "chapter_number", PVal.vnum 2)] rfl (by decide) ?_ e he
    decide
  · exact (done_checkpoint_halts.2 (str "sp") default_progress
      (str "[chapter]\nHi. <THE END>\n[summary]\nS.\n") true 0 []
      (by decide) (by decide) (by decide)).1
